import Mathlib

/-!
Shallow embedding of the message race delivery core of
`relays/messages-relay` (files `message_race_loop.rs` and
`message_race_strategy.rs`): the basic delivery strategy (queue of
observed nonce ranges, target-confirmed nonce) and the loop-level
nonce selection, together with theorems about their behaviour.

Machine integers (`MessageNonce = u64`, header numbers) are modelled
as `Nat`: none of the verified operations can overflow on the values
the protocol produces, and every subtraction in the source is guarded
(`range_to_requeue.begin() - 1` is only evaluated when
`range_to_requeue.begin()` differs from, and is at least, the queued
begin). A Rust `panic!`/`assert!` failure is modelled as the `none`
case of an `Option`-valued result.
-/

/-- Header identifier: `relay_utils::HeaderId(number, hash)`. The code only
ever compares the `number` component (`queued_at.0 > best_header_at_target.0`);
the hash is opaque and modelled as a `Nat`. -/
structure HeaderId where
  number : Nat
  hash : Nat
deriving DecidableEq, Repr

/-- Client state snapshot: `message_lane_loop::ClientState` with
`best_self` (best header of the client's own chain) and `best_peer`
(best counterparty-chain header known to the client). -/
structure ClientState where
  best_self : HeaderId
  best_peer : HeaderId
deriving DecidableEq, Repr

/-- Modelled from the spec: the concrete `NoncesRange` implementation for
`RangeInclusive<MessageNonce>` lives outside the provided sources; this
structure follows the `NoncesRange` trait contract of
`message_race_loop.rs` and section 3 of the spec: an inclusive range
`[begin, end]` of nonces exposing `begin`, `end` and `greater_than`. -/
structure NoncesRange where
  begin : Nat
  «end» : Nat
deriving DecidableEq, Repr

/-- Modelled from the spec: `greater_than n` returns the sub-range of
nonces strictly greater than `n`, or `none` when the whole range is
`≤ n` (trait doc of `NoncesRange::greater_than`). -/
def NoncesRange.greater_than (r : NoncesRange) (nonce : Nat) : Option NoncesRange :=
  if r.«end» ≤ nonce then none
  else some ⟨max r.begin (nonce + 1), r.«end»⟩

/-- Nonces report of the race source client (`SourceClientNonces`). -/
structure SourceClientNonces where
  new_nonces : NoncesRange
  confirmed_nonce : Option Nat
deriving DecidableEq, Repr

/-- Nonces report of the race target client (`TargetClientNonces`). -/
structure TargetClientNonces where
  latest_nonce : Nat
  confirmed_nonce : Option Nat
deriving DecidableEq, Repr

/-- State of the race (`message_race_loop::RaceState`), instantiated at
the delivery strategy's concrete types; the opaque proof payload is
modelled as a `Nat`. -/
structure RaceState where
  source_state : Option ClientState
  target_state : Option ClientState
  nonces_to_submit : Option (HeaderId × NoncesRange × Nat)
  nonces_submitted : Option NoncesRange
deriving DecidableEq, Repr

/-- `RaceState::default()`: everything unknown / empty. -/
def RaceState.default : RaceState :=
  { source_state := none
    target_state := none
    nonces_to_submit := none
    nonces_submitted := none }

/-- The basic delivery strategy (`message_race_strategy::BasicStrategy`):
a front-to-back queue of `(observed-at header, nonce range)` pairs and
the best nonce known to the target node. The `VecDeque` is modelled as
a `List` whose head is the deque front and whose last element is the
deque back. -/
structure BasicStrategy where
  source_queue : List (HeaderId × NoncesRange)
  target_nonce : Nat
deriving DecidableEq, Repr

namespace BasicStrategy

/-- `BasicStrategy::new()`. -/
def new : BasicStrategy :=
  { source_queue := [], target_nonce := 0 }

/-- `RaceStrategy::is_empty` for the basic strategy. -/
def is_empty (s : BasicStrategy) : Bool :=
  s.source_queue.isEmpty

/-- `RaceStrategy::best_at_source` for the basic strategy:
`max(queue.back().map(range.end()).unwrap_or(target_nonce), target_nonce)`. -/
def best_at_source (s : BasicStrategy) : Nat :=
  max ((s.source_queue.getLast?.map (fun p => p.2.«end»)).getD s.target_nonce) s.target_nonce

/-- `RaceStrategy::best_at_target` for the basic strategy. -/
def best_at_target (s : BasicStrategy) : Nat :=
  s.target_nonce

/-- `RaceStrategy::source_nonces_updated` for the basic strategy:
append `new_nonces.greater_than(best_at_source())` (when non-empty)
to the back of the queue. -/
def source_nonces_updated (s : BasicStrategy) (at_block : HeaderId)
    (nonces : SourceClientNonces) : BasicStrategy :=
  match nonces.new_nonces.greater_than s.best_at_source with
  | none => s
  | some range => { s with source_queue := s.source_queue ++ [(at_block, range)] }

/-- The front-drain loop of `target_nonces_updated`: while the front
entry begins at or below `nonce`, pop it; if its `greater_than nonce`
suffix is non-empty re-insert the suffix at the front and stop,
otherwise continue with the next entry. -/
def drainQueue (nonce : Nat) :
    List (HeaderId × NoncesRange) → List (HeaderId × NoncesRange)
  | [] => []
  | (at_block, range) :: rest =>
    if range.begin ≤ nonce then
      match range.greater_than nonce with
      | some subrange => (at_block, subrange) :: rest
      | none => drainQueue nonce rest
    else
      (at_block, range) :: rest

/-- `RaceStrategy::target_nonces_updated` for the basic strategy:
ignore stale reports, drain the consumed front of the queue, clear the
in-flight ranges that the confirmation supersedes, and advance the
target-confirmed nonce. Returns the updated strategy and race state. -/
def target_nonces_updated (s : BasicStrategy) (nonces : TargetClientNonces)
    (race_state : RaceState) : BasicStrategy × RaceState :=
  let nonce := nonces.latest_nonce
  if nonce < s.target_nonce then
    (s, race_state)
  else
    let queue := drainQueue nonce s.source_queue
    let need_to_select_new_nonces :=
      (race_state.nonces_to_submit.map (fun p => decide (p.2.1.«end» ≤ nonce))).getD false
    let race_state1 :=
      if need_to_select_new_nonces then
        { race_state with nonces_to_submit := none }
      else race_state
    let need_new_nonces_to_submit :=
      (race_state1.nonces_submitted.map (fun r => decide (r.«end» ≤ nonce))).getD false
    let race_state2 :=
      if need_new_nonces_to_submit then
        { race_state1 with nonces_submitted := none }
      else race_state1
    ({ s with source_queue := queue, target_nonce := nonce }, race_state2)

/-- The scan loop of `select_nonces_to_deliver_with_selector`. Pops
front entries: an entry observed above the target's best peer header is
re-inserted unchanged and the scan stops; otherwise the selector
decides whether a suffix is held back (requeued, with the running end
moved to just before it when it is a proper suffix) or the whole entry
is taken. The `assert!` on a malformed selector result is the `none`
outcome (panic). Returns the remaining queue and the running result
end. -/
def selectLoop (selector : NoncesRange → Option NoncesRange) (best_number : Nat) :
    Option Nat → List (HeaderId × NoncesRange) →
      Option (List (HeaderId × NoncesRange) × Option Nat)
  | nonces_end, [] => some ([], nonces_end)
  | nonces_end, (queued_at, queued_range) :: rest =>
    let queued_range_begin := queued_range.begin
    let queued_range_end := queued_range.«end»
    let range_to_requeue :=
      if best_number < queued_at.number then some queued_range
      else selector queued_range
    match range_to_requeue with
    | some r =>
      if r.begin ≤ r.«end» ∧ queued_range_begin ≤ r.begin ∧ r.«end» = queued_range_end then
        some ((queued_at, r) :: rest,
          if r.begin ≠ queued_range_begin then some (r.begin - 1) else nonces_end)
      else
        none
    | none => selectLoop selector best_number (some queued_range_end) rest

/-- `BasicStrategy::select_nonces_to_deliver_with_selector`. The result
is `none` on a selector-contract panic, and otherwise the mutated
strategy together with the optional selected range
`[target_nonce + 1, nonces_end]`. -/
def select_nonces_to_deliver_with_selector (s : BasicStrategy)
    (race_state : RaceState) (selector : NoncesRange → Option NoncesRange) :
    Option (BasicStrategy × Option NoncesRange) :=
  if race_state.nonces_to_submit.isSome then
    some (s, none)
  else if race_state.nonces_submitted.isSome then
    some (s, none)
  else
    match race_state.target_state with
    | none => some (s, none)
    | some target_state =>
      match selectLoop selector target_state.best_peer.number none s.source_queue with
      | none => none
      | some (queue, nonces_end) =>
        some ({ s with source_queue := queue },
          nonces_end.map (fun nonces_end => ⟨s.target_nonce + 1, nonces_end⟩))

/-- `RaceStrategy::select_nonces_to_deliver` for the basic strategy:
the selector that never holds anything back (a `ProofParameters` of
`()` is elided). -/
def select_nonces_to_deliver (s : BasicStrategy) (race_state : RaceState) :
    Option (BasicStrategy × Option NoncesRange) :=
  s.select_nonces_to_deliver_with_selector race_state (fun _ => none)

end BasicStrategy

namespace MessageRaceLoop

/-- The loop-level `select_nonces_to_deliver` of `message_race_loop.rs`:
asks the strategy and pairs a selected range with
`target_state.best_peer`, the header at which the proof is generated. -/
def select_nonces_to_deliver (race_state : RaceState) (strategy : BasicStrategy) :
    Option (BasicStrategy × Option (HeaderId × NoncesRange)) :=
  match race_state.target_state with
  | none => some (strategy, none)
  | some target_state =>
    match strategy.select_nonces_to_deliver race_state with
    | none => none
    | some (strategy, selected) =>
      some (strategy, selected.map (fun range => (target_state.best_peer, range)))

end MessageRaceLoop

/-! Helper definitions for stating the claims. -/

/-- Applying a sequence of target-side nonces reports to a strategy and
race state, in order. -/
def applyTargetUpdates : BasicStrategy → RaceState → List TargetClientNonces →
    BasicStrategy × RaceState
  | s, rs, [] => (s, rs)
  | s, rs, nonces :: rest =>
    let step := s.target_nonces_updated nonces rs
    applyTargetUpdates step.1 step.2 rest

/-- Applying a sequence of source-side nonces reports to a strategy, in
order. -/
def applySourceUpdates (s : BasicStrategy) (updates : List (HeaderId × SourceClientNonces)) :
    BasicStrategy :=
  updates.foldl (fun s u => s.source_nonces_updated u.1 u.2) s

/-- The selector contract stated in the doc of
`select_nonces_to_deliver_with_selector`: a held-back range must be a
well-formed suffix of the range it was given. -/
def SelectorOk (selector : NoncesRange → Option NoncesRange) : Prop :=
  ∀ q r, selector q = some r →
    r.begin ≤ r.«end» ∧ q.begin ≤ r.begin ∧ r.«end» = q.«end»

/-- The queue invariant of the basic strategy: entries are well-formed
inclusive ranges, strictly beyond the target-confirmed nonce, pairwise
non-overlapping and in increasing nonce order. -/
def QueueWF (target_nonce : Nat) (q : List (HeaderId × NoncesRange)) : Prop :=
  List.Chain' (fun a b => a.2.«end» < b.2.begin) q ∧
  ∀ e ∈ q, e.2.begin ≤ e.2.«end» ∧ target_nonce < e.2.begin

/-! Basic lemmas about the embedded operations. -/

lemma greater_than_eq_none {r : NoncesRange} {n : Nat} :
    r.greater_than n = none ↔ r.«end» ≤ n := by
  unfold NoncesRange.greater_than
  split <;> simp_all

lemma greater_than_eq_some {r r' : NoncesRange} {n : Nat}
    (h : r.greater_than n = some r') :
    r' = ⟨max r.begin (n + 1), r.«end»⟩ ∧ n < r.«end» := by
  unfold NoncesRange.greater_than at h
  split at h <;> simp_all

lemma target_le_best_at_source (s : BasicStrategy) :
    s.target_nonce ≤ s.best_at_source :=
  le_max_right _ _

lemma back_end_le_best_at_source (s : BasicStrategy) (p : HeaderId × NoncesRange)
    (h : s.source_queue.getLast? = some p) :
    p.2.«end» ≤ s.best_at_source := by
  unfold BasicStrategy.best_at_source
  rw [h]
  exact le_max_of_le_left (le_of_eq rfl)

/-- C2: for every strategy and race state, `select_nonces_to_deliver`
(and `select_nonces_to_deliver_with_selector`, for every selector)
returns no range whenever `nonces_to_submit` is set, or
`nonces_submitted` is set, or the target snapshot is unknown; the
strategy — in particular its queue — is left unchanged. -/
theorem select_nonces_to_deliver_none_when_busy
    (s : BasicStrategy) (rs : RaceState)
    (h : rs.nonces_to_submit.isSome ∨ rs.nonces_submitted.isSome ∨ rs.target_state = none) :
    (∀ selector, s.select_nonces_to_deliver_with_selector rs selector = some (s, none)) ∧
    s.select_nonces_to_deliver rs = some (s, none) := by
  have hall : ∀ selector,
      s.select_nonces_to_deliver_with_selector rs selector = some (s, none) := by
    intro selector
    unfold BasicStrategy.select_nonces_to_deliver_with_selector
    by_cases h1 : rs.nonces_to_submit.isSome
    · simp [h1]
    · by_cases h2 : rs.nonces_submitted.isSome
      · simp [h1, h2]
      · have h3 : rs.target_state = none := by tauto
        simp [h1, h2, h3]
  exact ⟨hall, hall _⟩

/-- C2 witness: with `nonces_submitted` set, nothing is selected and
the queue is untouched. -/
theorem select_nonces_to_deliver_none_when_busy_witness :
    (∀ selector,
      BasicStrategy.select_nonces_to_deliver_with_selector
        ⟨[(⟨1, 1⟩, ⟨1, 5⟩)], 0⟩
        { RaceState.default with nonces_submitted := some ⟨1, 3⟩ } selector =
        some (⟨[(⟨1, 1⟩, ⟨1, 5⟩)], 0⟩, none)) ∧
    BasicStrategy.select_nonces_to_deliver ⟨[(⟨1, 1⟩, ⟨1, 5⟩)], 0⟩
      { RaceState.default with nonces_submitted := some ⟨1, 3⟩ } =
      some (⟨[(⟨1, 1⟩, ⟨1, 5⟩)], 0⟩, none) :=
  select_nonces_to_deliver_none_when_busy _ _ (Or.inr (Or.inl (by decide)))

/-- C3: any range returned by `select_nonces_to_deliver_with_selector`
— for any selector, in particular by `select_nonces_to_deliver` —
begins exactly at the target-confirmed nonce plus one. -/
theorem selected_range_begins_after_target_confirmed
    (s : BasicStrategy) (rs : RaceState)
    (selector : NoncesRange → Option NoncesRange)
    (s' : BasicStrategy) (r : NoncesRange)
    (h : s.select_nonces_to_deliver_with_selector rs selector = some (s', some r) ∨
      s.select_nonces_to_deliver rs = some (s', some r)) :
    r.begin = s.target_nonce + 1 := by
  have key : ∀ sel, s.select_nonces_to_deliver_with_selector rs sel = some (s', some r) →
      r.begin = s.target_nonce + 1 := by
    intro sel hsel
    unfold BasicStrategy.select_nonces_to_deliver_with_selector at hsel
    split at hsel
    · simp at hsel
    · split at hsel
      · simp at hsel
      · split at hsel
        · simp at hsel
        · split at hsel
          · exact absurd hsel (by simp)
          · rename_i queue nonces_end heq
            simp only [Option.some.injEq, Prod.mk.injEq] at hsel
            obtain ⟨-, hmap⟩ := hsel
            cases nonces_end with
            | none => simp at hmap
            | some e =>
              simp only [Option.map_some', Option.some.injEq] at hmap
              rw [← hmap]
  rcases h with h | h
  · exact key _ h
  · exact key _ h

/-- C3 witness: on a queue holding `1..=5` with target-confirmed nonce
`0`, the selected range begins at `1 = 0 + 1`. -/
theorem selected_range_begins_after_target_confirmed_witness :
    (⟨1, 5⟩ : NoncesRange).begin =
      (⟨[(⟨1, 1⟩, ⟨1, 5⟩)], 0⟩ : BasicStrategy).target_nonce + 1 :=
  selected_range_begins_after_target_confirmed
    ⟨[(⟨1, 1⟩, ⟨1, 5⟩)], 0⟩
    { RaceState.default with target_state := some ⟨⟨0, 0⟩, ⟨1, 1⟩⟩ }
    (fun _ => none) ⟨[], 0⟩ ⟨1, 5⟩ (Or.inr (by decide))

lemma target_nonces_updated_target_nonce_mono (s : BasicStrategy)
    (nonces : TargetClientNonces) (rs : RaceState) :
    s.target_nonce ≤ (s.target_nonces_updated nonces rs).1.target_nonce := by
  unfold BasicStrategy.target_nonces_updated
  by_cases h : nonces.latest_nonce < s.target_nonce
  · simp [h]
  · simp [h]
    omega

/-- C4: along any sequence of `target_nonces_updated` calls,
`best_at_target` never decreases; a report whose `latest_nonce` is
strictly below the target-confirmed nonce is ignored entirely, leaving
the strategy and the race state untouched. -/
theorem best_at_target_monotone (s : BasicStrategy) (rs : RaceState) :
    (∀ updates : List TargetClientNonces,
      s.best_at_target ≤ (applyTargetUpdates s rs updates).1.best_at_target) ∧
    (∀ nonces : TargetClientNonces, nonces.latest_nonce < s.target_nonce →
      s.target_nonces_updated nonces rs = (s, rs)) := by
  constructor
  · intro updates
    induction updates generalizing s rs with
    | nil => exact le_of_eq rfl
    | cons u rest ih =>
      calc s.best_at_target ≤ (s.target_nonces_updated u rs).1.best_at_target :=
            target_nonces_updated_target_nonce_mono s u rs
        _ ≤ _ := ih _ _
  · intro nonces h
    unfold BasicStrategy.target_nonces_updated
    simp [h]

/-- C4 witness: a stale report (`latest_nonce = 3` below the confirmed
`5`) leaves everything unchanged, and `best_at_target` never drops
along a report sequence. -/
theorem best_at_target_monotone_witness :
    (⟨[], 5⟩ : BasicStrategy).best_at_target ≤
      (applyTargetUpdates ⟨[], 5⟩ RaceState.default [⟨3, none⟩, ⟨7, none⟩]).1.best_at_target ∧
    (⟨[], 5⟩ : BasicStrategy).target_nonces_updated ⟨3, none⟩ RaceState.default =
      (⟨[], 5⟩, RaceState.default) :=
  ⟨(best_at_target_monotone ⟨[], 5⟩ RaceState.default).1 [⟨3, none⟩, ⟨7, none⟩],
    (best_at_target_monotone ⟨[], 5⟩ RaceState.default).2 ⟨3, none⟩ (by decide)⟩

lemma drainQueue_nil (n : Nat) : BasicStrategy.drainQueue n [] = [] := rfl

lemma drainQueue_cons (n : Nat) (a : HeaderId) (r : NoncesRange)
    (rest : List (HeaderId × NoncesRange)) :
    BasicStrategy.drainQueue n ((a, r) :: rest) =
      if r.begin ≤ n then
        match r.greater_than n with
        | some subrange => (a, subrange) :: rest
        | none => BasicStrategy.drainQueue n rest
      else (a, r) :: rest := rfl

lemma drainQueue_idem (n : Nat) :
    ∀ q : List (HeaderId × NoncesRange),
      BasicStrategy.drainQueue n (BasicStrategy.drainQueue n q) =
        BasicStrategy.drainQueue n q
  | [] => rfl
  | (a, r) :: rest => by
    rw [drainQueue_cons]
    by_cases hb : r.begin ≤ n
    · rw [if_pos hb]
      cases hg : r.greater_than n with
      | some sub =>
        have hs := greater_than_eq_some hg
        have hbeg : sub.begin = max r.begin (n + 1) := by rw [hs.1]
        have hge : n + 1 ≤ max r.begin (n + 1) := le_max_right _ _
        have hsub : ¬ sub.begin ≤ n := by omega
        rw [drainQueue_cons, if_neg hsub]
      | none => exact drainQueue_idem n rest
    · rw [if_neg hb, drainQueue_cons, if_neg hb]

lemma target_nonces_updated_eq (s : BasicStrategy) (nonces : TargetClientNonces)
    (rs : RaceState) (h : ¬ nonces.latest_nonce < s.target_nonce) :
    s.target_nonces_updated nonces rs =
      (⟨BasicStrategy.drainQueue nonces.latest_nonce s.source_queue, nonces.latest_nonce⟩,
       { rs with
         nonces_to_submit :=
           if (rs.nonces_to_submit.map
                (fun p => decide (p.2.1.«end» ≤ nonces.latest_nonce))).getD false then
             none
           else rs.nonces_to_submit,
         nonces_submitted :=
           if (rs.nonces_submitted.map
                (fun r => decide (r.«end» ≤ nonces.latest_nonce))).getD false then
             none
           else rs.nonces_submitted }) := by
  unfold BasicStrategy.target_nonces_updated
  rw [if_neg h]
  by_cases h1 :
      (rs.nonces_to_submit.map (fun p => decide (p.2.1.«end» ≤ nonces.latest_nonce))).getD false
  · by_cases h2 :
        (rs.nonces_submitted.map (fun r => decide (r.«end» ≤ nonces.latest_nonce))).getD false
    · simp [h1, h2]
    · simp [h1, h2]
  · by_cases h2 :
        (rs.nonces_submitted.map (fun r => decide (r.«end» ≤ nonces.latest_nonce))).getD false
    · simp [h1, h2]
    · simp [h1, h2]

/-- C9: `target_nonces_updated` is idempotent: running the same report
a second time, starting from the strategy and race state produced by
the first run, changes nothing. -/
theorem target_nonces_updated_idempotent (s : BasicStrategy)
    (nonces : TargetClientNonces) (rs : RaceState) :
    (s.target_nonces_updated nonces rs).1.target_nonces_updated nonces
      (s.target_nonces_updated nonces rs).2 = s.target_nonces_updated nonces rs := by
  by_cases h : nonces.latest_nonce < s.target_nonce
  · have h1 : s.target_nonces_updated nonces rs = (s, rs) := by
      unfold BasicStrategy.target_nonces_updated
      rw [if_pos h]
    rw [h1]
    exact h1
  · rw [target_nonces_updated_eq s nonces rs h]
    rw [target_nonces_updated_eq _ nonces _ (lt_irrefl _)]
    refine Prod.ext ?_ ?_
    · simp [drainQueue_idem]
    · by_cases h1 :
        (rs.nonces_to_submit.map
          (fun p => decide (p.2.1.«end» ≤ nonces.latest_nonce))).getD false
      · by_cases h2 :
          (rs.nonces_submitted.map
            (fun r => decide (r.«end» ≤ nonces.latest_nonce))).getD false
        · simp [h1, h2]
        · simp [h1, h2]
      · by_cases h2 :
          (rs.nonces_submitted.map
            (fun r => decide (r.«end» ≤ nonces.latest_nonce))).getD false
        · simp [h1, h2]
        · simp [h1, h2]

/-- C7: when `target_nonces_updated` processes a report with
`latest_nonce = n` at least the current target-confirmed nonce,
`nonces_to_submit` is cleared exactly when its range ends at or below
`n`, `nonces_submitted` is cleared exactly when its range ends at or
below `n`, and the `source_state` and `target_state` snapshots — and
any in-flight entry whose end exceeds `n` — are left unchanged. -/
theorem target_nonces_updated_race_state_effects (s : BasicStrategy)
    (nonces : TargetClientNonces) (rs : RaceState)
    (h : s.target_nonce ≤ nonces.latest_nonce) :
    ((s.target_nonces_updated nonces rs).2.source_state = rs.source_state) ∧
    ((s.target_nonces_updated nonces rs).2.target_state = rs.target_state) ∧
    (∀ hd r p, rs.nonces_to_submit = some (hd, r, p) →
      (s.target_nonces_updated nonces rs).2.nonces_to_submit =
        if r.«end» ≤ nonces.latest_nonce then none else some (hd, r, p)) ∧
    (rs.nonces_to_submit = none →
      (s.target_nonces_updated nonces rs).2.nonces_to_submit = none) ∧
    (∀ r, rs.nonces_submitted = some r →
      (s.target_nonces_updated nonces rs).2.nonces_submitted =
        if r.«end» ≤ nonces.latest_nonce then none else some r) ∧
    (rs.nonces_submitted = none →
      (s.target_nonces_updated nonces rs).2.nonces_submitted = none) := by
  rw [target_nonces_updated_eq s nonces rs (not_lt.mpr h)]
  refine ⟨rfl, rfl, ?_, ?_, ?_, ?_⟩
  · intro hd r p hsub
    by_cases hc : r.«end» ≤ nonces.latest_nonce
    · simp [hsub, hc]
    · simp [hsub, hc]
  · intro hsub
    simp [hsub]
  · intro r hsub
    by_cases hc : r.«end» ≤ nonces.latest_nonce
    · simp [hsub, hc]
    · simp [hsub, hc]
  · intro hsub
    simp [hsub]

/-- C7 witness: with `latest_nonce = 10`, an in-flight
`nonces_to_submit` range ending at `10` is cleared while a
`nonces_submitted` range ending at `12` is kept. -/
theorem target_nonces_updated_race_state_effects_witness :
    ((⟨[], 0⟩ : BasicStrategy).target_nonces_updated ⟨10, none⟩
        { RaceState.default with
          nonces_to_submit := some (⟨1, 1⟩, ⟨5, 10⟩, 0),
          nonces_submitted := some ⟨5, 12⟩ }).2.nonces_to_submit = none ∧
    ((⟨[], 0⟩ : BasicStrategy).target_nonces_updated ⟨10, none⟩
        { RaceState.default with
          nonces_to_submit := some (⟨1, 1⟩, ⟨5, 10⟩, 0),
          nonces_submitted := some ⟨5, 12⟩ }).2.nonces_submitted = some ⟨5, 12⟩ := by
  have h := target_nonces_updated_race_state_effects ⟨[], 0⟩ ⟨10, none⟩
    { RaceState.default with
      nonces_to_submit := some (⟨1, 1⟩, ⟨5, 10⟩, 0),
      nonces_submitted := some ⟨5, 12⟩ } (by decide)
  constructor
  · rw [h.2.2.1 ⟨1, 1⟩ ⟨5, 10⟩ 0 rfl]
    decide
  · rw [h.2.2.2.2.1 ⟨5, 12⟩ rfl]
    decide

lemma source_nonces_updated_best_at_source_mono (s : BasicStrategy)
    (at_block : HeaderId) (nonces : SourceClientNonces) :
    s.best_at_source ≤ (s.source_nonces_updated at_block nonces).best_at_source := by
  unfold BasicStrategy.source_nonces_updated
  cases hg : nonces.new_nonces.greater_than s.best_at_source with
  | none => exact le_of_eq rfl
  | some range =>
    have hr := greater_than_eq_some hg
    have hend : range.«end» = nonces.new_nonces.«end» := by rw [hr.1]
    have hlt : s.best_at_source < range.«end» := by omega
    show s.best_at_source ≤ BasicStrategy.best_at_source
      ⟨s.source_queue ++ [(at_block, range)], s.target_nonce⟩
    unfold BasicStrategy.best_at_source
    simp only [List.getLast?_concat, Option.map_some', Option.getD_some]
    exact le_max_of_le_left (le_of_lt hlt)

/-- C5: `best_at_source` equals `max(queue.back().end, target_confirmed)`
when the queue is non-empty and the target-confirmed nonce when it is
empty; it is never below `best_at_target`; and it is non-decreasing
along any sequence of `source_nonces_updated` calls. -/
theorem best_at_source_spec (s : BasicStrategy) :
    (s.source_queue = [] → s.best_at_source = s.target_nonce) ∧
    (∀ pre last, s.source_queue = pre ++ [last] →
      s.best_at_source = max last.2.«end» s.target_nonce) ∧
    s.best_at_target ≤ s.best_at_source ∧
    (∀ updates : List (HeaderId × SourceClientNonces),
      s.best_at_source ≤ (applySourceUpdates s updates).best_at_source) := by
  refine ⟨?_, ?_, le_max_right _ _, ?_⟩
  · intro hq
    unfold BasicStrategy.best_at_source
    simp [hq]
  · intro pre last hq
    unfold BasicStrategy.best_at_source
    simp [hq, List.getLast?_concat]
  · intro updates
    induction updates generalizing s with
    | nil => exact le_of_eq rfl
    | cons u rest ih =>
      calc s.best_at_source
          ≤ (s.source_nonces_updated u.1 u.2).best_at_source :=
            source_nonces_updated_best_at_source_mono s u.1 u.2
        _ ≤ _ := ih _

/-- C5 witness: on a queue whose back entry covers `6..=10` with
target-confirmed nonce `3`, `best_at_source` is `10`. -/
theorem best_at_source_spec_witness :
    (⟨[(⟨1, 1⟩, ⟨4, 5⟩), (⟨2, 2⟩, ⟨6, 10⟩)], 3⟩ : BasicStrategy).best_at_source =
      max (10 : Nat) 3 :=
  (best_at_source_spec ⟨[(⟨1, 1⟩, ⟨4, 5⟩), (⟨2, 2⟩, ⟨6, 10⟩)], 3⟩).2.1
    [(⟨1, 1⟩, ⟨4, 5⟩)] (⟨2, 2⟩, ⟨6, 10⟩) rfl

/-- C1: nonce selection is governed by the target's best known peer
header: the loop-level `select_nonces_to_deliver` pairs any selected
range with `target_state.best_peer`; the strategy's scan stops at the
first queue entry observed above that header's height, re-inserting it
at the front unchanged; and on the concrete scenario (source best self
header 10, target best peer header 8, nonces `1..=10` observed at
header 6, target `latest_nonce = 5`) the selection is `6..=10` paired
with header 8. -/
theorem selection_uses_target_best_peer_header :
    (∀ (rs : RaceState) (ts : ClientState) (strategy s' : BasicStrategy)
        (hdr : HeaderId) (rng : NoncesRange),
      rs.target_state = some ts →
      MessageRaceLoop.select_nonces_to_deliver rs strategy = some (s', some (hdr, rng)) →
      hdr = ts.best_peer) ∧
    (∀ (selector : NoncesRange → Option NoncesRange) (best_number : Nat)
        (acc : Option Nat) (a : HeaderId) (r : NoncesRange)
        (rest : List (HeaderId × NoncesRange)),
      best_number < a.number → r.begin ≤ r.«end» →
      BasicStrategy.selectLoop selector best_number acc ((a, r) :: rest) =
        some ((a, r) :: rest, acc)) ∧
    (let s1 := BasicStrategy.new.source_nonces_updated ⟨6, 6⟩ ⟨⟨1, 10⟩, none⟩
     let rs : RaceState :=
       { source_state := some ⟨⟨10, 10⟩, ⟨0, 0⟩⟩,
         target_state := some ⟨⟨0, 0⟩, ⟨8, 8⟩⟩,
         nonces_to_submit := none, nonces_submitted := none }
     let step := s1.target_nonces_updated ⟨5, none⟩ rs
     MessageRaceLoop.select_nonces_to_deliver step.2 step.1 =
       some (⟨[], 5⟩, some (⟨8, 8⟩, ⟨6, 10⟩))) := by
  refine ⟨?_, ?_, by decide⟩
  · intro rs ts strategy s' hdr rng hts hsel
    unfold MessageRaceLoop.select_nonces_to_deliver at hsel
    rw [hts] at hsel
    split at hsel
    · rename_i x heq
      exact Option.noConfusion heq
    · rename_i x ts2 heq
      injection heq with heq'
      subst heq'
      split at hsel
      · exact Option.noConfusion hsel
      · rename_i st sel heq2
        simp only [Option.some.injEq, Prod.mk.injEq] at hsel
        obtain ⟨-, hmap⟩ := hsel
        cases sel with
        | none => simp at hmap
        | some range =>
          simp only [Option.map_some', Option.some.injEq, Prod.mk.injEq] at hmap
          exact hmap.1.symm
  · intro selector best_number acc a r rest hnum hwf
    unfold BasicStrategy.selectLoop
    simp [hnum, hwf]

/-- C1 witness: an entry observed at header height 9, above the best
peer height 8, is re-inserted unchanged and the scan stops. -/
theorem selection_uses_target_best_peer_header_witness :
    BasicStrategy.selectLoop (fun _ => none) 8 none [(⟨9, 9⟩, ⟨1, 5⟩)] =
      some ([(⟨9, 9⟩, ⟨1, 5⟩)], none) :=
  selection_uses_target_best_peer_header.2.1 (fun _ => none) 8 none ⟨9, 9⟩ ⟨1, 5⟩ []
    (by decide) (by decide)

lemma selectLoop_ne_none (selector : NoncesRange → Option NoncesRange)
    (hsel : SelectorOk selector) (best_number : Nat) :
    ∀ (acc : Option Nat) (q : List (HeaderId × NoncesRange)),
      (∀ e ∈ q, e.2.begin ≤ e.2.«end») →
      BasicStrategy.selectLoop selector best_number acc q ≠ none
  | acc, [], _ => by
    unfold BasicStrategy.selectLoop
    simp
  | acc, (a, r) :: rest, hwf => by
    unfold BasicStrategy.selectLoop
    by_cases hn : best_number < a.number
    · have hr : r.begin ≤ r.«end» := hwf (a, r) (by simp)
      simp [hn, hr]
    · cases hs : selector r with
      | none =>
        simp only [hn, if_false, hs]
        exact selectLoop_ne_none selector hsel best_number (some r.«end») rest
          (fun e he => hwf e (by simp [he]))
      | some r2 =>
        obtain ⟨hc1, hc2, hc3⟩ := hsel r r2 hs
        simp [hn, hs, hc1, hc2, hc3]
        omega

/-- C8: a selector whose hold-back range is inverted, begins before the
queued range's begin, or ends elsewhere than the queued range's end
makes `select_nonces_to_deliver_with_selector` abort (the `assert!`,
modelled as the `none` result) when it is consulted on a queue entry;
a selector satisfying `SelectorOk` never triggers the assertion on a
well-formed queue. -/
theorem selector_contract_enforced :
    (∀ (selector : NoncesRange → Option NoncesRange) (s : BasicStrategy)
        (rs : RaceState) (ts : ClientState) (a : HeaderId) (q : NoncesRange)
        (rest : List (HeaderId × NoncesRange)) (r : NoncesRange),
      rs.nonces_to_submit = none → rs.nonces_submitted = none →
      rs.target_state = some ts →
      s.source_queue = (a, q) :: rest →
      a.number ≤ ts.best_peer.number →
      selector q = some r →
      (r.«end» < r.begin ∨ r.begin < q.begin ∨ r.«end» ≠ q.«end») →
      s.select_nonces_to_deliver_with_selector rs selector = none) ∧
    (∀ (selector : NoncesRange → Option NoncesRange) (s : BasicStrategy)
        (rs : RaceState),
      SelectorOk selector →
      (∀ e ∈ s.source_queue, e.2.begin ≤ e.2.«end») →
      s.select_nonces_to_deliver_with_selector rs selector ≠ none) := by
  constructor
  · intro selector s rs ts a q rest r h1 h2 h3 hq hno hsel hviol
    unfold BasicStrategy.select_nonces_to_deliver_with_selector
    rw [h1, h2, h3, hq]
    have hn : ¬ ts.best_peer.number < a.number := not_lt.mpr hno
    have hcond : ¬ (r.begin ≤ r.«end» ∧ q.begin ≤ r.begin ∧ r.«end» = q.«end») := by
      rcases hviol with h | h | h <;> omega
    unfold BasicStrategy.selectLoop
    simp [hn, hsel, hcond]
  · intro selector s rs hok hwf
    unfold BasicStrategy.select_nonces_to_deliver_with_selector
    by_cases h1 : rs.nonces_to_submit.isSome
    · simp [h1]
    · by_cases h2 : rs.nonces_submitted.isSome
      · simp [h1, h2]
      · cases h3 : rs.target_state with
        | none => simp [h1, h2, h3]
        | some ts =>
          simp only [h1, h2, h3, Bool.false_eq_true, if_false]
          cases hloop : BasicStrategy.selectLoop selector ts.best_peer.number none
              s.source_queue with
          | none => exact absurd hloop (selectLoop_ne_none selector hok _ _ _ hwf)
          | some res => simp [hloop]

/-- C8 witness: the selector that always holds back the inverted range
`2..=1` aborts on the queue entry `1..=100`, while the take-everything
selector completes. -/
theorem selector_contract_enforced_witness :
    BasicStrategy.select_nonces_to_deliver_with_selector ⟨[(⟨1, 1⟩, ⟨1, 100⟩)], 0⟩
      { RaceState.default with target_state := some ⟨⟨0, 0⟩, ⟨1, 1⟩⟩ }
      (fun _ => some ⟨2, 1⟩) = none ∧
    BasicStrategy.select_nonces_to_deliver_with_selector ⟨[(⟨1, 1⟩, ⟨1, 100⟩)], 0⟩
      { RaceState.default with target_state := some ⟨⟨0, 0⟩, ⟨1, 1⟩⟩ }
      (fun _ => none) ≠ none :=
  ⟨selector_contract_enforced.1 (fun _ => some ⟨2, 1⟩) ⟨[(⟨1, 1⟩, ⟨1, 100⟩)], 0⟩
      { RaceState.default with target_state := some ⟨⟨0, 0⟩, ⟨1, 1⟩⟩ }
      ⟨⟨0, 0⟩, ⟨1, 1⟩⟩ ⟨1, 1⟩ ⟨1, 100⟩ [] ⟨2, 1⟩ rfl rfl rfl rfl (by decide) rfl
      (Or.inl (by decide)),
    selector_contract_enforced.2 (fun _ => none) ⟨[(⟨1, 1⟩, ⟨1, 100⟩)], 0⟩
      { RaceState.default with target_state := some ⟨⟨0, 0⟩, ⟨1, 1⟩⟩ }
      (fun q r h => Option.noConfusion h) (by decide)⟩

lemma selectLoop_default_suffix (bn : Nat) :
    ∀ (acc : Option Nat) (q q' : List (HeaderId × NoncesRange)) (acc' : Option Nat),
      BasicStrategy.selectLoop (fun _ => none) bn acc q = some (q', acc') →
      ∃ pre, q = pre ++ q'
  | acc, [], q', acc' => by
    unfold BasicStrategy.selectLoop
    intro h
    simp only [Option.some.injEq, Prod.mk.injEq] at h
    exact ⟨[], by rw [← h.1]; rfl⟩
  | acc, (a, r) :: rest, q', acc' => by
    unfold BasicStrategy.selectLoop
    intro h
    by_cases hn : bn < a.number
    · simp only [hn, if_true] at h
      split at h
      · simp only [Option.some.injEq, Prod.mk.injEq] at h
        exact ⟨[], by rw [← h.1]; rfl⟩
      · exact Option.noConfusion h
    · simp only [hn, if_false] at h
      obtain ⟨pre, hpre⟩ := selectLoop_default_suffix bn (some r.«end») rest q' acc' h
      exact ⟨(a, r) :: pre, by rw [hpre]; rfl⟩

lemma select_with_selector_keeps_target_nonce (s : BasicStrategy) (rs : RaceState)
    (selector : NoncesRange → Option NoncesRange) (s' : BasicStrategy)
    (res : Option NoncesRange)
    (h : s.select_nonces_to_deliver_with_selector rs selector = some (s', res)) :
    s'.target_nonce = s.target_nonce := by
  unfold BasicStrategy.select_nonces_to_deliver_with_selector at h
  split at h
  · simp only [Option.some.injEq, Prod.mk.injEq] at h
    rw [← h.1]
  · split at h
    · simp only [Option.some.injEq, Prod.mk.injEq] at h
      rw [← h.1]
    · split at h
      · simp only [Option.some.injEq, Prod.mk.injEq] at h
        rw [← h.1]
      · split at h
        · exact Option.noConfusion h
        · simp only [Option.some.injEq, Prod.mk.injEq] at h
          rw [← h.1]

/-- C10: a successful selection consumes the queue before any
confirmation exists: the strategy's target-confirmed nonce is unchanged
by the call, with the default selector the remaining queue is a suffix
of the original one (fully taken entries are removed for good), and
there are reachable states where `best_at_source` strictly decreases
across the call — down to the target-confirmed nonce when the whole
queue is consumed — after which the selected nonces cannot be selected
again. -/
theorem select_consumes_queue_without_confirmation :
    (∀ (s : BasicStrategy) (rs : RaceState)
        (selector : NoncesRange → Option NoncesRange)
        (s' : BasicStrategy) (res : Option NoncesRange),
      s.select_nonces_to_deliver_with_selector rs selector = some (s', res) →
      s'.target_nonce = s.target_nonce) ∧
    (∀ (s : BasicStrategy) (rs : RaceState)
        (s' : BasicStrategy) (res : Option NoncesRange),
      s.select_nonces_to_deliver rs = some (s', res) →
      ∃ pre, s.source_queue = pre ++ s'.source_queue) ∧
    ((⟨[(⟨1, 1⟩, ⟨1, 5⟩)], 0⟩ : BasicStrategy).select_nonces_to_deliver
        { RaceState.default with target_state := some ⟨⟨0, 0⟩, ⟨1, 1⟩⟩ } =
          some (⟨[], 0⟩, some ⟨1, 5⟩) ∧
      (⟨[], 0⟩ : BasicStrategy).best_at_source <
        (⟨[(⟨1, 1⟩, ⟨1, 5⟩)], 0⟩ : BasicStrategy).best_at_source ∧
      (⟨[], 0⟩ : BasicStrategy).best_at_source =
        (⟨[(⟨1, 1⟩, ⟨1, 5⟩)], 0⟩ : BasicStrategy).target_nonce ∧
      (⟨[], 0⟩ : BasicStrategy).select_nonces_to_deliver
        { RaceState.default with target_state := some ⟨⟨0, 0⟩, ⟨1, 1⟩⟩ } =
          some (⟨[], 0⟩, none)) := by
  refine ⟨select_with_selector_keeps_target_nonce, ?_, by decide⟩
  intro s rs s' res h
  unfold BasicStrategy.select_nonces_to_deliver
    BasicStrategy.select_nonces_to_deliver_with_selector at h
  split at h
  · simp only [Option.some.injEq, Prod.mk.injEq] at h
    exact ⟨[], by rw [← h.1]; rfl⟩
  · split at h
    · simp only [Option.some.injEq, Prod.mk.injEq] at h
      exact ⟨[], by rw [← h.1]; rfl⟩
    · split at h
      · simp only [Option.some.injEq, Prod.mk.injEq] at h
        exact ⟨[], by rw [← h.1]; rfl⟩
      · split at h
        · exact Option.noConfusion h
        · rename_i queue nonces_end heq
          simp only [Option.some.injEq, Prod.mk.injEq] at h
          obtain ⟨pre, hpre⟩ := selectLoop_default_suffix _ _ _ _ _ heq
          refine ⟨pre, ?_⟩
          rw [← h.1]
          exact hpre

/-- C10 witness: selecting from a singleton queue keeps the
target-confirmed nonce and removes the consumed entry. -/
theorem select_consumes_queue_without_confirmation_witness :
    ((⟨[], 0⟩ : BasicStrategy).target_nonce =
      (⟨[(⟨1, 1⟩, ⟨1, 5⟩)], 0⟩ : BasicStrategy).target_nonce) ∧
    (∃ pre, (⟨[(⟨1, 1⟩, ⟨1, 5⟩)], 0⟩ : BasicStrategy).source_queue =
      pre ++ (⟨[], 0⟩ : BasicStrategy).source_queue) :=
  ⟨select_consumes_queue_without_confirmation.1 ⟨[(⟨1, 1⟩, ⟨1, 5⟩)], 0⟩
      { RaceState.default with target_state := some ⟨⟨0, 0⟩, ⟨1, 1⟩⟩ }
      (fun _ => none) ⟨[], 0⟩ (some ⟨1, 5⟩) (by decide),
    select_consumes_queue_without_confirmation.2.1 ⟨[(⟨1, 1⟩, ⟨1, 5⟩)], 0⟩
      { RaceState.default with target_state := some ⟨⟨0, 0⟩, ⟨1, 1⟩⟩ }
      ⟨[], 0⟩ (some ⟨1, 5⟩) (by decide)⟩

lemma chain_rest_gt :
    ∀ (x : HeaderId × NoncesRange) (rest : List (HeaderId × NoncesRange)),
      List.Chain' (fun a b => a.2.«end» < b.2.begin) (x :: rest) →
      (∀ e ∈ rest, e.2.begin ≤ e.2.«end») →
      ∀ e ∈ rest, x.2.«end» < e.2.begin
  | x, [], _, _ => by simp
  | x, y :: ys, hchain, hwf => by
    intro e he
    have hxy : x.2.«end» < y.2.begin := (List.chain'_cons.mp hchain).1
    rcases List.mem_cons.mp he with rfl | he'
    · exact hxy
    · have hy := chain_rest_gt y ys (List.chain'_cons.mp hchain).2
        (fun e he => hwf e (List.mem_cons_of_mem _ he)) e he'
      have hywf : y.2.begin ≤ y.2.«end» := hwf y (List.mem_cons_self _ _)
      omega

lemma drainQueue_wf (n tn : Nat) :
    ∀ q : List (HeaderId × NoncesRange),
      QueueWF tn q → QueueWF n (BasicStrategy.drainQueue n q)
  | [], _ => ⟨List.chain'_nil, by simp [drainQueue_nil]⟩
  | (a, r) :: rest, hq => by
    obtain ⟨hchain, hwf⟩ := hq
    rw [drainQueue_cons]
    have hrest_gt : ∀ e ∈ rest, r.«end» < e.2.begin :=
      chain_rest_gt (a, r) rest hchain (fun e he => (hwf e (List.mem_cons_of_mem _ he)).1)
    by_cases hb : r.begin ≤ n
    · rw [if_pos hb]
      cases hg : r.greater_than n with
      | some sub =>
        have hs := greater_than_eq_some hg
        have hsub_begin : sub.begin = max r.begin (n + 1) := by rw [hs.1]
        have hsub_end : sub.«end» = r.«end» := by rw [hs.1]
        refine ⟨?_, ?_⟩
        · rcases rest with _ | ⟨y, ys⟩
          · exact List.chain'_singleton _
          · rw [List.chain'_cons] at hchain ⊢
            exact ⟨by rw [hsub_end]; exact hchain.1, hchain.2⟩
        · intro e he
          rcases List.mem_cons.mp he with rfl | he'
          · have hr := (hwf (a, r) (List.mem_cons_self _ _)).1
            refine ⟨?_, ?_⟩
            · show sub.begin ≤ sub.«end»
              rw [hsub_begin, hsub_end]
              omega
            · show n < sub.begin
              rw [hsub_begin]
              omega
          · have h1 := hwf e (List.mem_cons_of_mem _ he')
            have h2 := hrest_gt e he'
            exact ⟨h1.1, by omega⟩
      | none =>
        have hend := greater_than_eq_none.mp hg
        exact drainQueue_wf n tn rest
          ⟨hchain.tail, fun e he => hwf e (List.mem_cons_of_mem _ he)⟩
    · rw [if_neg hb]
      refine ⟨hchain, ?_⟩
      intro e he
      have hr : r.begin ≤ r.«end» := (hwf (a, r) (List.mem_cons_self _ _)).1
      rcases List.mem_cons.mp he with rfl | he'
      · refine ⟨hr, ?_⟩
        show n < r.begin
        omega
      · have h1 := hwf e (List.mem_cons_of_mem _ he')
        have h2 : r.«end» < e.2.begin := hrest_gt e he'
        exact ⟨h1.1, by omega⟩

lemma drainQueue_provenance (n : Nat) :
    ∀ q : List (HeaderId × NoncesRange), ∀ e ∈ BasicStrategy.drainQueue n q,
      ∃ orig ∈ q, e.1 = orig.1 ∧ (e.2 = orig.2 ∨ orig.2.greater_than n = some e.2)
  | [], e, he => by simp [drainQueue_nil] at he
  | (a, r) :: rest, e, he => by
    rw [drainQueue_cons] at he
    by_cases hb : r.begin ≤ n
    · rw [if_pos hb] at he
      cases hg : r.greater_than n with
      | some sub =>
        rw [hg] at he
        rcases List.mem_cons.mp he with rfl | he'
        · exact ⟨(a, r), List.mem_cons_self _ _, rfl, Or.inr hg⟩
        · exact ⟨e, List.mem_cons_of_mem _ he', rfl, Or.inl rfl⟩
      | none =>
        rw [hg] at he
        obtain ⟨orig, ho, h1, h2⟩ := drainQueue_provenance n rest e he
        exact ⟨orig, List.mem_cons_of_mem _ ho, h1, h2⟩
    · rw [if_neg hb] at he
      exact ⟨e, he, rfl, Or.inl rfl⟩

lemma source_nonces_updated_wf (s : BasicStrategy) (at_block : HeaderId)
    (nonces : SourceClientNonces)
    (hq : QueueWF s.target_nonce s.source_queue)
    (hnw : nonces.new_nonces.begin ≤ nonces.new_nonces.«end») :
    QueueWF (s.source_nonces_updated at_block nonces).target_nonce
      (s.source_nonces_updated at_block nonces).source_queue := by
  unfold BasicStrategy.source_nonces_updated
  cases hg : nonces.new_nonces.greater_than s.best_at_source with
  | none => exact hq
  | some range =>
    have hr := greater_than_eq_some hg
    have hrb : range.begin = max nonces.new_nonces.begin (s.best_at_source + 1) := by
      rw [hr.1]
    have hre : range.«end» = nonces.new_nonces.«end» := by rw [hr.1]
    obtain ⟨hchain, hwf⟩ := hq
    have htn := target_le_best_at_source s
    refine ⟨?_, ?_⟩
    · rw [List.chain'_append]
      refine ⟨hchain, List.chain'_singleton _, ?_⟩
      intro x hx y hy
      simp only [List.head?_cons, Option.mem_def, Option.some.injEq] at hy
      subst hy
      have hxe : x.2.«end» ≤ s.best_at_source :=
        back_end_le_best_at_source s x hx
      show x.2.«end» < range.begin
      omega
    · intro e he
      rcases List.mem_append.mp he with he' | he'
      · exact hwf e he'
      · simp only [List.mem_singleton] at he'
        subst he'
        constructor
        · show range.begin ≤ range.«end»
          omega
        · show s.target_nonce < range.begin
          omega

lemma selectLoop_wf (selector : NoncesRange → Option NoncesRange)
    (hok : SelectorOk selector) (bn tn : Nat) :
    ∀ (acc : Option Nat) (q : List (HeaderId × NoncesRange)),
      QueueWF tn q →
      ∀ (q' : List (HeaderId × NoncesRange)) (acc' : Option Nat),
        BasicStrategy.selectLoop selector bn acc q = some (q', acc') →
        QueueWF tn q'
  | acc, [], hq, q', acc' => by
    unfold BasicStrategy.selectLoop
    intro h
    simp only [Option.some.injEq, Prod.mk.injEq] at h
    rw [← h.1]
    exact ⟨List.chain'_nil, by simp⟩
  | acc, (a, r) :: rest, hq, q', acc' => by
    unfold BasicStrategy.selectLoop
    intro h
    obtain ⟨hchain, hwf⟩ := hq
    by_cases hn : bn < a.number
    · simp only [hn, if_true] at h
      split at h
      · simp only [Option.some.injEq, Prod.mk.injEq] at h
        rw [← h.1]
        exact ⟨hchain, hwf⟩
      · exact Option.noConfusion h
    · simp only [hn, if_false] at h
      cases hs : selector r with
      | none =>
        rw [hs] at h
        exact selectLoop_wf selector hok bn tn (some r.«end») rest
          ⟨hchain.tail, fun e he => hwf e (List.mem_cons_of_mem _ he)⟩ q' acc' h
      | some r2 =>
        rw [hs] at h
        obtain ⟨hc1, hc2, hc3⟩ := hok r r2 hs
        split at h
        · rename_i x sub heq
          injection heq with heq'
          subst heq'
          rw [if_pos ⟨hc1, hc2, hc3⟩] at h
          simp only [Option.some.injEq, Prod.mk.injEq] at h
          rw [← h.1]
          refine ⟨?_, ?_⟩
          · rcases rest with _ | ⟨y, ys⟩
            · exact List.chain'_singleton _
            · rw [List.chain'_cons] at hchain ⊢
              refine ⟨?_, hchain.2⟩
              show r2.«end» < y.2.begin
              have hxy : r.«end» < y.2.begin := hchain.1
              omega
          · intro e he
            rcases List.mem_cons.mp he with rfl | he'
            · have hb : tn < r.begin := (hwf (a, r) (List.mem_cons_self _ _)).2
              refine ⟨hc1, ?_⟩
              show tn < r2.begin
              omega
            · exact hwf e (List.mem_cons_of_mem _ he')
        · rename_i x heq
          exact Option.noConfusion heq

/-- C6: every strategy operation preserves the queue invariant
(`QueueWF`: well-formed entries strictly beyond the target-confirmed
nonce, pairwise non-overlapping, in increasing order), and immediately
after a non-stale `target_nonces_updated` with `latest_nonce = n` no
queued entry begins at or below `n` — every surviving entry is an
original entry or the `greater_than n` trim of one. -/
theorem queue_invariant_preserved :
    (∀ (s : BasicStrategy) (at_block : HeaderId) (nonces : SourceClientNonces),
      QueueWF s.target_nonce s.source_queue →
      nonces.new_nonces.begin ≤ nonces.new_nonces.«end» →
      QueueWF (s.source_nonces_updated at_block nonces).target_nonce
        (s.source_nonces_updated at_block nonces).source_queue) ∧
    (∀ (s : BasicStrategy) (nonces : TargetClientNonces) (rs : RaceState),
      QueueWF s.target_nonce s.source_queue →
      QueueWF (s.target_nonces_updated nonces rs).1.target_nonce
        (s.target_nonces_updated nonces rs).1.source_queue) ∧
    (∀ (s : BasicStrategy) (rs : RaceState)
        (selector : NoncesRange → Option NoncesRange)
        (s' : BasicStrategy) (res : Option NoncesRange),
      SelectorOk selector →
      QueueWF s.target_nonce s.source_queue →
      s.select_nonces_to_deliver_with_selector rs selector = some (s', res) →
      QueueWF s'.target_nonce s'.source_queue) ∧
    (∀ (s : BasicStrategy) (nonces : TargetClientNonces) (rs : RaceState),
      QueueWF s.target_nonce s.source_queue →
      s.target_nonce ≤ nonces.latest_nonce →
      ∀ e ∈ (s.target_nonces_updated nonces rs).1.source_queue,
        nonces.latest_nonce < e.2.begin ∧
        ∃ orig ∈ s.source_queue, e.1 = orig.1 ∧
          (e.2 = orig.2 ∨ orig.2.greater_than nonces.latest_nonce = some e.2)) := by
  refine ⟨source_nonces_updated_wf, ?_, ?_, ?_⟩
  · intro s nonces rs hq
    by_cases h : nonces.latest_nonce < s.target_nonce
    · have hid : s.target_nonces_updated nonces rs = (s, rs) := by
        unfold BasicStrategy.target_nonces_updated
        rw [if_pos h]
      rw [hid]
      exact hq
    · rw [target_nonces_updated_eq s nonces rs h]
      exact drainQueue_wf nonces.latest_nonce s.target_nonce s.source_queue hq
  · intro s rs selector s' res hok hq hsel
    unfold BasicStrategy.select_nonces_to_deliver_with_selector at hsel
    split at hsel
    · simp only [Option.some.injEq, Prod.mk.injEq] at hsel
      rw [← hsel.1]
      exact hq
    · split at hsel
      · simp only [Option.some.injEq, Prod.mk.injEq] at hsel
        rw [← hsel.1]
        exact hq
      · split at hsel
        · simp only [Option.some.injEq, Prod.mk.injEq] at hsel
          rw [← hsel.1]
          exact hq
        · split at hsel
          · exact Option.noConfusion hsel
          · rename_i queue nonces_end heq
            simp only [Option.some.injEq, Prod.mk.injEq] at hsel
            rw [← hsel.1]
            exact selectLoop_wf selector hok _ s.target_nonce none s.source_queue hq
              queue nonces_end heq
  · intro s nonces rs hq hle e he
    have hnl : ¬ nonces.latest_nonce < s.target_nonce := not_lt.mpr hle
    rw [target_nonces_updated_eq s nonces rs hnl] at he
    have hwf := (drainQueue_wf nonces.latest_nonce s.target_nonce s.source_queue hq).2 e he
    have hprov := drainQueue_provenance nonces.latest_nonce s.source_queue e he
    exact ⟨hwf.2, hprov⟩

/-- C6 witness: appending the report `1..=5` to the empty strategy
keeps the queue invariant. -/
theorem queue_invariant_preserved_witness :
    QueueWF (BasicStrategy.new.source_nonces_updated ⟨1, 1⟩ ⟨⟨1, 5⟩, none⟩).target_nonce
      (BasicStrategy.new.source_nonces_updated ⟨1, 1⟩ ⟨⟨1, 5⟩, none⟩).source_queue :=
  queue_invariant_preserved.1 BasicStrategy.new ⟨1, 1⟩ ⟨⟨1, 5⟩, none⟩
    ⟨List.chain'_nil, by simp [BasicStrategy.new]⟩ (by decide)
